import Mathlib

/-!
Shallow embedding of `src/SparseMatrix.py`.

The Python class `SparseMatrix` stores its entries in a Python `dict`
keyed by the string `f"{row},{col}"`.  Since the decimal rendering of an
integer contains no comma, that key encoding is injective, so the dict is
modelled here as an insertion-ordered association list keyed directly by
the pair `(row, col) : Int × Int`.  Python dict semantics are preserved:
assignment to an existing key updates the value in place (keeping the
key's position), assignment to a fresh key appends at the end, and lookup
returns the stored value of the (unique) matching key.

Python strings handled by the file parser / serializer are modelled as
`List Char`; `int(...)`, `str.split`, `str.strip`, `str.startswith`,
`str.endswith` and slicing are modelled by the list functions below.
-/

/-- Lookup in a Python-dict modelled as an association list
(`elements.get(key, default)` / `elements[key]`). -/
def dictGet (es : List ((Int × Int) × Int)) (k : Int × Int) : Option Int :=
  match es with
  | [] => none
  | (k2, v) :: rest => if k2 = k then some v else dictGet rest k

/-- Assignment `elements[key] = value` on a Python dict: update in place if
the key is present, append otherwise. -/
def dictSet (es : List ((Int × Int) × Int)) (k : Int × Int) (v : Int) :
    List ((Int × Int) × Int) :=
  match es with
  | [] => [(k, v)]
  | (k2, v2) :: rest => if k2 = k then (k2, v) :: rest else (k2, v2) :: dictSet rest k v

/-- The key list of the dict, in insertion order. -/
def dictKeys (es : List ((Int × Int) × Int)) : List (Int × Int) :=
  es.map (fun p => p.1)

/-- `class SparseMatrix`: the element dict plus the declared dimensions
(`self.elements`, `self.num_rows`, `self.num_cols`). -/
structure SparseMatrix where
  elements : List ((Int × Int) × Int)
  num_rows : Int
  num_cols : Int
deriving Repr, DecidableEq

namespace SparseMatrix

/-- `SparseMatrix.__init__(num_rows, num_cols)`. -/
def init (num_rows num_cols : Int) : SparseMatrix :=
  { elements := [], num_rows := num_rows, num_cols := num_cols }

/-- `set_element(row, col, value)` (lines 67-81 of the source): grow
`num_rows` to `row + 1` when `row >= num_rows`, symmetrically for
columns, then unconditionally store `value` at key `(row, col)`. -/
def set_element (m : SparseMatrix) (row col value : Int) : SparseMatrix :=
  { elements :=
      dictSet m.elements (row, col) value
    num_rows := if row ≥ m.num_rows then row + 1 else m.num_rows
    num_cols := if col ≥ m.num_cols then col + 1 else m.num_cols }

/-- `get_element(row, col)` (lines 83-92): stored value, `0` when the key
is absent; no bounds check against the declared dimensions. -/
def get_element (m : SparseMatrix) (row col : Int) : Int :=
  (dictGet m.elements (row, col)).getD 0

/-- The loop body shared by `add` (second loop) and `multiply`:
`result.set_element(row, col, result.get_element(row, col) + delta)`. -/
def accumStep (r : SparseMatrix) (p : (Int × Int) × Int) : SparseMatrix :=
  r.set_element p.1.1 p.1.2 (r.get_element p.1.1 p.1.2 + p.2)

/-- `add(other)` (lines 94-116): dimension check, then copy every entry of
`self` into the result, then accumulate every entry of `other`. -/
def add (a b : SparseMatrix) : Except String SparseMatrix :=
  if a.num_rows ≠ b.num_rows ∨ a.num_cols ≠ b.num_cols then
    .error "Cannot add matrices of different dimensions."
  else
    let r1 := a.elements.foldl (fun r p => r.set_element p.1.1 p.1.2 p.2)
      (init a.num_rows a.num_cols)
    .ok (b.elements.foldl accumStep r1)

/-- `subtract(other)` (lines 118-135): dimension check, then the result is
built only from `other`'s entries:
`result.set_element(row, col, self.get_element(row, col) - value)`. -/
def subtract (a b : SparseMatrix) : Except String SparseMatrix :=
  if a.num_rows ≠ b.num_rows ∨ a.num_cols ≠ b.num_cols then
    .error "Cannot subtract matrices of different dimensions."
  else
    .ok (b.elements.foldl
      (fun r p => r.set_element p.1.1 p.1.2 (a.get_element p.1.1 p.1.2 - p.2))
      (init a.num_rows a.num_cols))

/-- `multiply(other)` (lines 137-156): shape-compatibility check, then the
naive double loop over both element dicts, accumulating `v1 * v2` into
`result[row1, col2]` whenever `col1 == row2`. -/
def multiply (a b : SparseMatrix) : Except String SparseMatrix :=
  if a.num_cols ≠ b.num_rows then
    .error "Cannot multiply: column count of the first matrix must equal row count of the second."
  else
    .ok (a.elements.foldl
      (fun r p1 => b.elements.foldl
        (fun r2 p2 =>
          if p1.1.2 = p2.1.1 then accumStep r2 ((p1.1.1, p2.1.2), p1.2 * p2.2) else r2)
        r)
      (init a.num_rows b.num_cols))

/-- Well-formedness of the element store: a Python dict never holds two
entries with the same key. Every dict the program builds satisfies it. -/
def WF (m : SparseMatrix) : Prop := (dictKeys m.elements).Nodup

/-- The dimension invariant of claim C10: every stored coordinate lies
strictly below the declared dimensions. -/
def Inv (m : SparseMatrix) : Prop :=
  ∀ p ∈ m.elements, p.1.1 < m.num_rows ∧ p.1.2 < m.num_cols

end SparseMatrix

/-! ### Decimal integers, modelling Python `str(int)` and `int(str)` -/

/-- The decimal rendering of a natural number (the digit characters of
Python `str(n)`). -/
def natRepr (n : Nat) : List Char :=
  if n = 0 then ['0'] else ((Nat.digits 10 n).map Nat.digitChar).reverse

/-- The decimal rendering of an integer, as produced by Python
`str(i)` / f-string interpolation: a minus sign for negatives, then the
decimal digits. -/
def intRepr (i : Int) : List Char :=
  if i < 0 then '-' :: natRepr i.natAbs else natRepr i.natAbs

/-- Parse an unsigned run of decimal digits; `none` when empty or when a
non-digit character occurs. -/
def parseDigits (l : List Char) : Option Nat :=
  if l ≠ [] ∧ l.all Char.isDigit then
    some (l.foldl (fun a c => 10 * a + (c.toNat - 48)) 0)
  else none

/-- Parse an optionally signed decimal integer (the shape CPython
`int(str)` accepts once surrounding whitespace is removed; digit
grouping with underscores is not modelled). -/
def parseSigned (l : List Char) : Option Int :=
  if l.head? = some '-' then
    match parseDigits l.tail with
    | some n => some (-(n : Int))
    | none => none
  else if l.head? = some '+' then
    match parseDigits l.tail with
    | some n => some ((n : Int))
    | none => none
  else
    match parseDigits l with
    | some n => some ((n : Int))
    | none => none

/-- Python `str.strip()`: remove leading and trailing whitespace. -/
def stripChars (l : List Char) : List Char :=
  ((l.dropWhile Char.isWhitespace).reverse.dropWhile Char.isWhitespace).reverse

/-- Python `int(s)`: strip surrounding whitespace, then parse a signed
decimal integer; `none` models `ValueError`. -/
def pyInt (l : List Char) : Option Int :=
  parseSigned (stripChars l)

/-- Python `s.split(sep)` for a one-character separator: always returns
at least one (possibly empty) piece. -/
def splitOnChar (c : Char) : List Char → List (List Char)
  | [] => [[]]
  | a :: rest =>
    match splitOnChar c rest with
    | [] => [[a]]
    | s :: ss => if a = c then [] :: s :: ss else (a :: s) :: ss

/-- Python `sep.join(lines)` for a one-character separator. -/
def joinSep (c : Char) : List (List Char) → List Char
  | [] => []
  | [x] => x
  | x :: xs => x ++ c :: joinSep c xs

/-! ### The file parser (`from_file`, lines 28-65) and serializer
(`__str__` / `save_to_file`, lines 158-177), modelled on the list of
text lines.  `_parse_matrix_file` (lines 13-26) reduces the file to its
stripped non-blank lines; the file-system part (`open`, `FileNotFoundError`)
is outside the embedding. -/

namespace SparseMatrix

/-- `int(lines[i].split('=')[1])` for a header line: `none` models both
the `IndexError` (no `=`) and the `ValueError` (non-integer right-hand
side), which the source catches together. -/
def parseDim (l : List Char) : Option Int :=
  match (splitOnChar '=' l).get? 1 with
  | some s => pyInt s
  | none => none

/-- Parsing of the three fields of one element line (lines 55-61):
`line[1:-1]` is split on commas and the first three fields are parsed as
integers after stripping; `none` models the caught
`IndexError`/`ValueError`. Fields beyond the third are ignored, as in the
source. -/
def parseTriple (l : List Char) : Option (Int × Int × Int) :=
  let fields := splitOnChar ',' ((l.drop 1).dropLast)
  match fields.get? 0, fields.get? 1, fields.get? 2 with
  | some f0, some f1, some f2 =>
    match pyInt (stripChars f0), pyInt (stripChars f1), pyInt (stripChars f2) with
    | some r, some c, some v => some (r, c, v)
    | _, _, _ => none
  | _, _, _ => none

/-- The element-line loop of `from_file` (lines 51-63): each line must
start with `(` and end with `)`, parse as three integers, and is fed to
`set_element`. -/
def parseElems : List (List Char) → SparseMatrix → Except String SparseMatrix
  | [], m => .ok m
  | l :: ls, m =>
    if l.head? = some '(' ∧ l.getLast? = some ')' then
      match parseTriple l with
      | some (r, c, v) => parseElems ls (m.set_element r c v)
      | none => .error "Invalid matrix element format in file."
    else .error "Invalid format for matrix element."

/-- `from_file` (lines 28-65) applied to the stripped non-blank lines of
the file: at least two lines, the two header dimensions, then the
element lines. -/
def fromLines (lines : List (List Char)) : Except String SparseMatrix :=
  match lines with
  | l0 :: l1 :: rest =>
    match parseDim l0, parseDim l1 with
    | some nr, some nc => parseElems rest (init nr nc)
    | _, _ => .error "Invalid matrix dimensions."
  | _ => .error "File must contain at least two lines for dimensions."

/-- `_parse_matrix_file` (lines 13-26) on the raw text: split into
physical lines, strip each, drop blank ones.  (Python's `readlines`
keeps each trailing newline, which `strip` then removes, so splitting on
the newline first is equivalent.) -/
def parseMatrixFileContent (content : List Char) : List (List Char) :=
  ((splitOnChar '\n' content).map stripChars).filter (fun l => l ≠ [])

/-- `from_file` on raw file text. -/
def fromFileContent (content : List Char) : Except String SparseMatrix :=
  fromLines (parseMatrixFileContent content)

/-- One element line of `__str__` (line 167): `f"({row}, {col}, {value})"`,
where `row` and `col` are the decimal strings stored in the key. -/
def elemLine (p : (Int × Int) × Int) : List Char :=
  ['('] ++ intRepr p.1.1 ++ [',', ' '] ++ intRepr p.1.2 ++ [',', ' '] ++ intRepr p.2 ++ [')']

/-- The lines of `__str__` (lines 158-168): the two header lines then one
line per stored entry, in dict order. -/
def strLines (m : SparseMatrix) : List (List Char) :=
  (['r', 'o', 'w', 's'] ++ '=' :: intRepr m.num_rows)
  :: (['c', 'o', 'l', 's'] ++ '=' :: intRepr m.num_cols)
  :: m.elements.map elemLine

/-- `save_to_file` (lines 170-177) writes `'\n'.join`-ed `__str__` lines
as the whole file text. -/
def fileContent (m : SparseMatrix) : List Char :=
  joinSep '\n' (strLines m)

/-! ### Specification helpers used by the proofs -/

/-- Sum of the values a list of (key, delta) accumulations contributes at
one key. -/
def sumAt (ps : List ((Int × Int) × Int)) (k : Int × Int) : Int :=
  ((ps.filter (fun p => p.1 = k)).map (fun p => p.2)).sum

/-- The (key, delta) contributions of `multiply`'s double loop, in loop
order. -/
def mulDeltas (a b : SparseMatrix) : List ((Int × Int) × Int) :=
  a.elements.flatMap (fun p1 =>
    b.elements.filterMap (fun p2 =>
      if p1.1.2 = p2.1.1 then some ((p1.1.1, p2.1.2), p1.2 * p2.2) else none))

/-- The column indices stored in row `i` of `a`, in dict order. -/
def colsInRow (a : SparseMatrix) (i : Int) : List Int :=
  a.elements.filterMap (fun p => if p.1.1 = i then some p.1.2 else none)

/-- The concrete 2×2 matrix A of the spec's test scenario, built the way
the program builds matrices. -/
def exampleA : SparseMatrix :=
  ((((init 2 2).set_element 0 0 1).set_element 0 1 2).set_element 1 0 3).set_element 1 1 4

/-- The concrete 2×2 identity matrix B of the spec's test scenario. -/
def exampleB : SparseMatrix :=
  ((init 2 2).set_element 0 0 1).set_element 1 1 1

end SparseMatrix

/-! ## Lemmas about the dict model -/

theorem dictGet_dictSet (es : List ((Int × Int) × Int)) (k k2 : Int × Int) (v : Int) :
    dictGet (dictSet es k v) k2 = if k = k2 then some v else dictGet es k2 := by
  induction es with
  | nil => by_cases h : k = k2 <;> simp [dictSet, dictGet, h]
  | cons p rest ih =>
    obtain ⟨k3, v3⟩ := p
    by_cases h : k3 = k
    · subst h
      by_cases h2 : k3 = k2 <;> simp [dictSet, dictGet, h2]
    · by_cases h2 : k3 = k2
      · subst h2
        have hk : ¬ k = k3 := fun hh => h hh.symm
        simp [dictSet, dictGet, h, hk]
      · simp [dictSet, dictGet, h, h2, ih]

theorem mem_dictKeys_dictSet (es : List ((Int × Int) × Int)) (k k2 : Int × Int) (v : Int) :
    k2 ∈ dictKeys (dictSet es k v) ↔ k2 = k ∨ k2 ∈ dictKeys es := by
  induction es with
  | nil => simp [dictSet, dictKeys, eq_comm]
  | cons p rest ih =>
    obtain ⟨k3, v3⟩ := p
    by_cases h : k3 = k
    · subst h
      have hset : dictSet ((k3, v3) :: rest) k3 v = (k3, v) :: rest := by
        simp [dictSet]
      rw [hset]
      simp only [dictKeys, List.map_cons, List.mem_cons]
      tauto
    · simp only [dictSet, if_neg h, dictKeys, List.map_cons, List.mem_cons]
      rw [show (List.map (fun p => p.1) (dictSet rest k v)) = dictKeys (dictSet rest k v) from rfl,
        ih]
      tauto

theorem dictSet_of_not_mem (es : List ((Int × Int) × Int)) (k : Int × Int) (v : Int)
    (h : k ∉ dictKeys es) : dictSet es k v = es ++ [(k, v)] := by
  induction es with
  | nil => simp [dictSet]
  | cons p rest ih =>
    obtain ⟨k3, v3⟩ := p
    simp only [dictKeys, List.map_cons, List.mem_cons] at h
    push_neg at h
    have h3 : k3 ≠ k := fun hh => h.1 hh.symm
    simp only [dictSet, if_neg h3, List.cons_append, List.cons.injEq, true_and]
    exact ih h.2

theorem dictGet_eq_none_iff (es : List ((Int × Int) × Int)) (k : Int × Int) :
    dictGet es k = none ↔ k ∉ dictKeys es := by
  induction es with
  | nil => simp [dictGet, dictKeys]
  | cons p rest ih =>
    obtain ⟨k3, v3⟩ := p
    by_cases h : k3 = k
    · subst h; simp [dictGet, dictKeys]
    · have h2 : ¬ k = k3 := fun hh => h hh.symm
      simp [dictGet, dictKeys, h, h2, ih]

theorem mem_of_dictGet_eq_some (es : List ((Int × Int) × Int)) (k : Int × Int) (v : Int)
    (h : dictGet es k = some v) : (k, v) ∈ es := by
  induction es with
  | nil => simp [dictGet] at h
  | cons p rest ih =>
    obtain ⟨k3, v3⟩ := p
    by_cases h3 : k3 = k
    · subst h3
      simp [dictGet] at h
      subst h
      exact List.mem_cons_self _ _
    · simp only [dictGet, if_neg h3] at h
      exact List.mem_cons_of_mem _ (ih h)

theorem dictGet_of_mem (es : List ((Int × Int) × Int)) (k : Int × Int) (v : Int)
    (hnd : (dictKeys es).Nodup) (hm : (k, v) ∈ es) : dictGet es k = some v := by
  induction es with
  | nil => simp at hm
  | cons p rest ih =>
    obtain ⟨k3, v3⟩ := p
    simp only [dictKeys, List.map_cons, List.nodup_cons] at hnd
    rcases List.mem_cons.1 hm with h | h
    · injection h with h1 h2
      subst h1; subst h2
      simp [dictGet]
    · have h3 : k3 ≠ k := by
        rintro rfl
        exact hnd.1 (List.mem_map.2 ⟨(k3, v), h, rfl⟩)
      simp only [dictGet, if_neg h3]
      exact ih hnd.2 h

theorem mem_of_mem_dictSet (es : List ((Int × Int) × Int)) (k : Int × Int) (v : Int)
    (p : (Int × Int) × Int) (h : p ∈ dictSet es k v) : p = (k, v) ∨ p ∈ es := by
  induction es with
  | nil => simpa [dictSet] using h
  | cons q rest ih =>
    obtain ⟨k3, v3⟩ := q
    by_cases h3 : k3 = k
    · subst h3
      have hset : dictSet ((k3, v3) :: rest) k3 v = (k3, v) :: rest := by
        simp [dictSet]
      rw [hset] at h
      rcases List.mem_cons.1 h with h | h
      · exact Or.inl h
      · exact Or.inr (List.mem_cons_of_mem _ h)
    · simp only [dictSet, if_neg h3, List.mem_cons] at h
      rcases h with h | h
      · exact Or.inr (List.mem_cons.2 (Or.inl h))
      · rcases ih h with h2 | h2
        · exact Or.inl h2
        · exact Or.inr (List.mem_cons_of_mem _ h2)

/-! ## Lemmas about `set_element` and `get_element` -/

namespace SparseMatrix

theorem elements_set_element (m : SparseMatrix) (r c v : Int) :
    (m.set_element r c v).elements = dictSet m.elements (r, c) v := rfl

theorem get_element_set_element (m : SparseMatrix) (r c v i j : Int) :
    (m.set_element r c v).get_element i j
      = if (r, c) = (i, j) then v else m.get_element i j := by
  unfold get_element
  rw [elements_set_element, dictGet_dictSet]
  by_cases h : ((r : Int), (c : Int)) = (i, j) <;> simp [h]

theorem get_element_eq_zero_of_not_mem (m : SparseMatrix) (r c : Int)
    (h : (r, c) ∉ dictKeys m.elements) : m.get_element r c = 0 := by
  unfold get_element
  rw [(dictGet_eq_none_iff m.elements (r, c)).2 h]
  rfl

/-! ## Accumulation-loop lemmas -/

theorem sumAt_nil (k : Int × Int) : sumAt [] k = 0 := rfl

theorem sumAt_cons (p : (Int × Int) × Int) (ps : List ((Int × Int) × Int)) (k : Int × Int) :
    sumAt (p :: ps) k = (if p.1 = k then p.2 else 0) + sumAt ps k := by
  by_cases h : p.1 = k <;> simp [sumAt, List.filter_cons, h]

theorem sumAt_append (xs ys : List ((Int × Int) × Int)) (k : Int × Int) :
    sumAt (xs ++ ys) k = sumAt xs k + sumAt ys k := by
  simp [sumAt, List.filter_append, List.sum_append]

theorem sumAt_flatMap {β : Type} (l : List β) (f : β → List ((Int × Int) × Int))
    (k : Int × Int) :
    sumAt (l.flatMap f) k = (l.map (fun x => sumAt (f x) k)).sum := by
  induction l with
  | nil => simp [sumAt]
  | cons x xs ih => simp [List.flatMap_cons, sumAt_append, ih]

theorem sumAt_of_not_mem (ps : List ((Int × Int) × Int)) (k : Int × Int)
    (h : k ∉ dictKeys ps) : sumAt ps k = 0 := by
  induction ps with
  | nil => rfl
  | cons p rest ih =>
    simp only [dictKeys, List.map_cons, List.mem_cons] at h
    push_neg at h
    have h1 : p.1 ≠ k := fun hh => h.1 hh.symm
    rw [sumAt_cons, if_neg h1, ih h.2, add_zero]

theorem sumAt_eq_dictGet (es : List ((Int × Int) × Int)) (k : Int × Int)
    (hnd : (dictKeys es).Nodup) : sumAt es k = (dictGet es k).getD 0 := by
  induction es with
  | nil => rfl
  | cons p rest ih =>
    obtain ⟨k3, v3⟩ := p
    simp only [dictKeys, List.map_cons, List.nodup_cons] at hnd
    by_cases h : k3 = k
    · subst h
      rw [sumAt_cons, if_pos rfl]
      have : sumAt rest k3 = 0 := sumAt_of_not_mem rest k3 (by
        intro hmem
        exact hnd.1 (by simpa [dictKeys] using hmem))
      simp [dictGet, this]
    · have h2 : ¬ (k3, v3).1 = k := h
      rw [sumAt_cons, if_neg h2, ih hnd.2]
      simp [dictGet, h]

theorem get_foldl_accum (ps : List ((Int × Int) × Int)) :
    ∀ (r : SparseMatrix) (i j : Int),
      ((ps.foldl accumStep r).get_element i j) = r.get_element i j + sumAt ps (i, j) := by
  induction ps with
  | nil => intro r i j; simp [sumAt]
  | cons p rest ih =>
    intro r i j
    obtain ⟨⟨pr, pc⟩, pv⟩ := p
    rw [List.foldl_cons, ih, sumAt_cons]
    have hstep : (accumStep r ((pr, pc), pv)).get_element i j
        = r.get_element i j + (if ((pr, pc) : Int × Int) = (i, j) then pv else 0) := by
      unfold accumStep
      rw [get_element_set_element]
      by_cases h : ((pr : Int), (pc : Int)) = (i, j)
      · injection h with h1 h2
        subst h1; subst h2
        simp
      · rw [if_neg h, if_neg h, add_zero]
    rw [hstep, add_assoc]

theorem dictKeys_append (xs ys : List ((Int × Int) × Int)) :
    dictKeys (xs ++ ys) = dictKeys xs ++ dictKeys ys := by
  simp [dictKeys]

/-! ## Lemmas about folds of `set_element` calls -/

theorem foldl_setf_elements (f : ((Int × Int) × Int) → Int) :
    ∀ (es : List ((Int × Int) × Int)) (acc : SparseMatrix),
      (∀ k ∈ dictKeys es, k ∉ dictKeys acc.elements) → (dictKeys es).Nodup →
      (es.foldl (fun r p => r.set_element p.1.1 p.1.2 (f p)) acc).elements
        = acc.elements ++ es.map (fun p => (p.1, f p)) := by
  intro es
  induction es with
  | nil => intro acc _ _; simp
  | cons p rest ih =>
    intro acc hdisj hnd
    simp only [dictKeys, List.map_cons, List.nodup_cons] at hnd
    have hfresh : (p.1.1, p.1.2) ∉ dictKeys acc.elements :=
      hdisj p.1 (by simp [dictKeys])
    have hel : (acc.set_element p.1.1 p.1.2 (f p)).elements
        = acc.elements ++ [(p.1, f p)] := by
      rw [elements_set_element, dictSet_of_not_mem _ _ _ hfresh]
    have hd2 : ∀ k ∈ dictKeys rest, k ∉ dictKeys (acc.set_element p.1.1 p.1.2 (f p)).elements := by
      intro k hk
      rw [hel, dictKeys_append]
      simp only [List.mem_append]
      push_neg
      refine ⟨hdisj k (by
        simp only [dictKeys, List.map_cons, List.mem_cons]
        exact Or.inr hk), ?_⟩
      simp only [dictKeys, List.map_cons, List.map_nil, List.mem_singleton]
      rintro rfl
      exact hnd.1 (by simpa [dictKeys] using hk)
    rw [List.foldl_cons, ih (acc.set_element p.1.1 p.1.2 (f p)) hd2 hnd.2, hel]
    simp

theorem mem_dictKeys_foldl (g : SparseMatrix → ((Int × Int) × Int) → Int) :
    ∀ (ps : List ((Int × Int) × Int)) (acc : SparseMatrix) (k : Int × Int),
      (k ∈ dictKeys ((ps.foldl (fun r p => r.set_element p.1.1 p.1.2 (g r p)) acc).elements))
        ↔ k ∈ dictKeys acc.elements ∨ k ∈ dictKeys ps := by
  intro ps
  induction ps with
  | nil => intro acc k; simp [dictKeys]
  | cons p rest ih =>
    intro acc k
    rw [List.foldl_cons, ih]
    rw [show (acc.set_element p.1.1 p.1.2 (g acc p)).elements
      = dictSet acc.elements (p.1.1, p.1.2) (g acc p) from rfl]
    rw [mem_dictKeys_dictSet]
    simp only [dictKeys, List.map_cons, List.mem_cons, Prod.mk.eta]
    tauto

theorem inv_init (nr nc : Int) : (init nr nc).Inv := by
  intro p hp
  simp [init] at hp

theorem inv_set_element (m : SparseMatrix) (r c v : Int) (h : m.Inv) :
    (m.set_element r c v).Inv := by
  intro p hp
  rw [elements_set_element] at hp
  have hrow : m.num_rows ≤ (m.set_element r c v).num_rows := by
    simp only [set_element]
    by_cases hge : r ≥ m.num_rows
    · rw [if_pos hge]; omega
    · rw [if_neg hge]
  have hcol : m.num_cols ≤ (m.set_element r c v).num_cols := by
    simp only [set_element]
    by_cases hge : c ≥ m.num_cols
    · rw [if_pos hge]; omega
    · rw [if_neg hge]
  rcases mem_of_mem_dictSet _ _ _ _ hp with h2 | h2
  · subst h2
    constructor
    · show r < (m.set_element r c v).num_rows
      simp only [set_element]
      by_cases hge : r ≥ m.num_rows
      · rw [if_pos hge]; omega
      · rw [if_neg hge]; omega
    · show c < (m.set_element r c v).num_cols
      simp only [set_element]
      by_cases hge : c ≥ m.num_cols
      · rw [if_pos hge]; omega
      · rw [if_neg hge]; omega
  · obtain ⟨hr2, hc2⟩ := h p h2
    exact ⟨lt_of_lt_of_le hr2 hrow, lt_of_lt_of_le hc2 hcol⟩

theorem inv_foldl (g : SparseMatrix → ((Int × Int) × Int) → Int) :
    ∀ (ps : List ((Int × Int) × Int)) (acc : SparseMatrix), acc.Inv →
      (ps.foldl (fun r p => r.set_element p.1.1 p.1.2 (g r p)) acc).Inv := by
  intro ps
  induction ps with
  | nil => intro acc h; exact h
  | cons p rest ih =>
    intro acc h
    rw [List.foldl_cons]
    exact ih _ (inv_set_element _ _ _ _ h)

theorem set_element_dims_of_lt (m : SparseMatrix) (r c v : Int)
    (hr : r < m.num_rows) (hc : c < m.num_cols) :
    (m.set_element r c v).num_rows = m.num_rows
      ∧ (m.set_element r c v).num_cols = m.num_cols := by
  constructor
  · show (if r ≥ m.num_rows then r + 1 else m.num_rows) = m.num_rows
    rw [if_neg (by omega)]
  · show (if c ≥ m.num_cols then c + 1 else m.num_cols) = m.num_cols
    rw [if_neg (by omega)]

theorem foldl_dims_of_bounds (g : SparseMatrix → ((Int × Int) × Int) → Int) :
    ∀ (ps : List ((Int × Int) × Int)) (acc : SparseMatrix),
      (∀ p ∈ ps, p.1.1 < acc.num_rows ∧ p.1.2 < acc.num_cols) →
      (ps.foldl (fun r p => r.set_element p.1.1 p.1.2 (g r p)) acc).num_rows = acc.num_rows
        ∧ (ps.foldl (fun r p => r.set_element p.1.1 p.1.2 (g r p)) acc).num_cols = acc.num_cols := by
  intro ps
  induction ps with
  | nil => intro acc _; exact ⟨rfl, rfl⟩
  | cons p rest ih =>
    intro acc hb
    obtain ⟨hr, hc⟩ := hb p (List.mem_cons_self _ _)
    obtain ⟨e1, e2⟩ := set_element_dims_of_lt acc p.1.1 p.1.2 (g acc p) hr hc
    rw [List.foldl_cons]
    have hb2 : ∀ q ∈ rest, q.1.1 < (acc.set_element p.1.1 p.1.2 (g acc p)).num_rows
        ∧ q.1.2 < (acc.set_element p.1.1 p.1.2 (g acc p)).num_cols := by
      intro q hq
      rw [e1, e2]
      exact hb q (List.mem_cons_of_mem _ hq)
    obtain ⟨f1, f2⟩ := ih (acc.set_element p.1.1 p.1.2 (g acc p)) hb2
    rw [f1, f2, e1, e2]
    exact ⟨rfl, rfl⟩

/-! ## Rewriting the nested `multiply` loop as one accumulation list -/

theorem foldl_ite_filterMap {β γ δ : Type} (cnd : β → Prop) [DecidablePred cnd]
    (hf : β → γ) (g : δ → γ → δ) (l : List β) :
    ∀ acc : δ, l.foldl (fun r x => if cnd x then g r (hf x) else r) acc
      = (l.filterMap (fun x => if cnd x then some (hf x) else none)).foldl g acc := by
  induction l with
  | nil => intro acc; rfl
  | cons x xs ih =>
    intro acc
    by_cases hx : cnd x <;> simp [hx, List.filterMap_cons, ih]

theorem foldl_flatMap {β γ δ : Type} (f : β → List γ) (g : δ → γ → δ) (l : List β) :
    ∀ acc : δ, (l.flatMap f).foldl g acc = l.foldl (fun r x => (f x).foldl g r) acc := by
  induction l with
  | nil => intro acc; rfl
  | cons x xs ih =>
    intro acc
    simp [List.flatMap_cons, List.foldl_append, ih]

theorem multiply_eq_foldl_mulDeltas (a b : SparseMatrix) (hdim : a.num_cols = b.num_rows) :
    multiply a b = .ok ((mulDeltas a b).foldl accumStep (init a.num_rows b.num_cols)) := by
  unfold multiply
  rw [if_neg (by simp [hdim])]
  congr 1
  unfold mulDeltas
  rw [foldl_flatMap]
  have hfun : (fun (r : SparseMatrix) (p1 : (Int × Int) × Int) =>
      b.elements.foldl (fun r2 p2 =>
        if p1.1.2 = p2.1.1 then accumStep r2 ((p1.1.1, p2.1.2), p1.2 * p2.2) else r2) r)
    = fun (r : SparseMatrix) (p1 : (Int × Int) × Int) =>
      (b.elements.filterMap (fun p2 =>
        if p1.1.2 = p2.1.1 then some ((p1.1.1, p2.1.2), p1.2 * p2.2) else none)).foldl
          accumStep r := by
    funext r p1
    exact foldl_ite_filterMap _ _ _ _ r
  rw [hfun]

/-! ## Characterizations of `add` and `subtract` on matching shapes -/

theorem add_ok_of_dims (a b : SparseMatrix)
    (hr : a.num_rows = b.num_rows) (hc : a.num_cols = b.num_cols) :
    add a b = .ok (b.elements.foldl accumStep
      (a.elements.foldl (fun r p => r.set_element p.1.1 p.1.2 p.2)
        (init a.num_rows a.num_cols))) := by
  unfold add
  rw [if_neg (by simp [hr, hc])]

theorem subtract_ok_of_dims (a b : SparseMatrix)
    (hr : a.num_rows = b.num_rows) (hc : a.num_cols = b.num_cols) :
    subtract a b = .ok (b.elements.foldl
      (fun r p => r.set_element p.1.1 p.1.2 (a.get_element p.1.1 p.1.2 - p.2))
      (init a.num_rows a.num_cols)) := by
  unfold subtract
  rw [if_neg (by simp [hr, hc])]

/-- The copy loop of `add`: with well-formed input, copying from the empty
result reproduces the element dict exactly. -/
theorem copy_elements (a : SparseMatrix) (hwa : a.WF) (nr nc : Int) :
    (a.elements.foldl (fun r p => r.set_element p.1.1 p.1.2 p.2) (init nr nc)).elements
      = a.elements := by
  have h := foldl_setf_elements (fun p => p.2) a.elements (init nr nc)
    (by intro k _ hk; simp [init, dictKeys] at hk) hwa
  rw [h]
  simp [init]

/-- `get_element` only looks at the element dict. -/
theorem get_element_congr (m m2 : SparseMatrix) (h : m.elements = m2.elements)
    (i j : Int) : m.get_element i j = m2.get_element i j := by
  unfold get_element
  rw [h]

theorem get_element_init (nr nc i j : Int) : (init nr nc).get_element i j = 0 := rfl

/-! ## Claim theorems -/

/-- C4: on the concrete 2×2 scenario — A with entries
(0,0,1),(0,1,2),(1,0,3),(1,1,4) and B the 2×2 identity — `add`
produces exactly (0,0,2),(0,1,2),(1,0,3),(1,1,5), `multiply` reproduces
exactly A's entries, and `subtract` produces exactly (0,0,0),(1,1,3),
dropping A's (0,1) and (1,0) entries. -/
theorem concrete_two_by_two_scenario :
    add exampleA exampleB
      = .ok ⟨[((0, 0), 2), ((0, 1), 2), ((1, 0), 3), ((1, 1), 5)], 2, 2⟩
    ∧ multiply exampleA exampleB = .ok ⟨exampleA.elements, 2, 2⟩
    ∧ exampleA.elements = [((0, 0), 1), ((0, 1), 2), ((1, 0), 3), ((1, 1), 4)]
    ∧ subtract exampleA exampleB = .ok ⟨[((0, 0), 0), ((1, 1), 3)], 2, 2⟩ := by
  refine ⟨rfl, rfl, rfl, rfl⟩

/-- C5: `get_element` after `set_element` at the same coordinate returns
the written value for every integer coordinate and value — zero included,
which is kept as an explicit stored entry — while a coordinate absent
from the element dict reads as 0; neither direction checks the declared
dimensions (the statement quantifies over all integer coordinates,
in-range or not, negative included). -/
theorem set_get_roundtrip_and_default_zero (m : SparseMatrix) (r c v : Int) :
    ((m.set_element r c v).get_element r c = v
      ∧ dictGet (m.set_element r c v).elements (r, c) = some v)
    ∧ ((r, c) ∉ dictKeys m.elements → m.get_element r c = 0) := by
  refine ⟨⟨?_, ?_⟩, ?_⟩
  · rw [get_element_set_element, if_pos rfl]
  · rw [elements_set_element, dictGet_dictSet, if_pos rfl]
  · exact get_element_eq_zero_of_not_mem m r c

/-- Witness for C5 at concrete inputs. -/
theorem set_get_roundtrip_and_default_zero_witness :
    ((SparseMatrix.mk [] 0 0).set_element 5 7 9).get_element 5 7 = 9
      ∧ (SparseMatrix.mk [] 0 0).get_element 5 7 = 0 :=
  ⟨(set_get_roundtrip_and_default_zero ⟨[], 0, 0⟩ 5 7 9).1.1,
    (set_get_roundtrip_and_default_zero ⟨[], 0, 0⟩ 5 7 9).2 (by decide)⟩

/-- C6: `set_element` sets `num_rows` to `row + 1` exactly when
`row >= num_rows` (leaving it unchanged otherwise), symmetrically for
columns, and unconditionally stores the value at the key, overwriting any
prior entry; consequently `from_file` silently grows the header-declared
dimensions when an element line's indices exceed them, as the concrete
1×1 header with element `(2, 3, 7)` shows. -/
theorem set_element_grows_dims (m : SparseMatrix) (r c v : Int) :
    (m.set_element r c v).num_rows = (if r ≥ m.num_rows then r + 1 else m.num_rows)
    ∧ (m.set_element r c v).num_cols = (if c ≥ m.num_cols then c + 1 else m.num_cols)
    ∧ dictGet (m.set_element r c v).elements (r, c) = some v
    ∧ fromLines ["rows=1".toList, "cols=1".toList, "(2, 3, 7)".toList]
        = .ok ⟨[((2, 3), 7)], 3, 4⟩ := by
  refine ⟨rfl, rfl, ?_, rfl⟩
  rw [elements_set_element, dictGet_dictSet, if_pos rfl]

/-- C7: `add` and `subtract` return the dimension-mismatch error exactly
when the declared shapes differ, and `multiply` exactly when
`self.num_cols != other.num_rows`; on failure an error value (no result
matrix) is returned, and since the operations are pure functions of their
operands, the operands themselves are unchanged. -/
theorem dimension_mismatch_errors (a b : SparseMatrix) :
    ((∃ e, add a b = .error e) ↔ (a.num_rows ≠ b.num_rows ∨ a.num_cols ≠ b.num_cols))
    ∧ ((∃ e, subtract a b = .error e) ↔ (a.num_rows ≠ b.num_rows ∨ a.num_cols ≠ b.num_cols))
    ∧ ((∃ e, multiply a b = .error e) ↔ a.num_cols ≠ b.num_rows) := by
  refine ⟨?_, ?_, ?_⟩
  · by_cases h : a.num_rows ≠ b.num_rows ∨ a.num_cols ≠ b.num_cols
    · unfold add
      rw [if_pos h]
      simp [h]
    · unfold add
      rw [if_neg h]
      simp [h]
  · by_cases h : a.num_rows ≠ b.num_rows ∨ a.num_cols ≠ b.num_cols
    · unfold subtract
      rw [if_pos h]
      simp [h]
    · unfold subtract
      rw [if_neg h]
      simp [h]
  · by_cases h : a.num_cols ≠ b.num_rows
    · unfold multiply
      rw [if_pos h]
      simp [h]
    · unfold multiply
      rw [if_neg h]
      simp [h]

theorem subtract_result_elements (a b : SparseMatrix) (hwb : b.WF)
    (hr : a.num_rows = b.num_rows) (hc : a.num_cols = b.num_cols) :
    ∃ r, subtract a b = .ok r
      ∧ r.elements = b.elements.map (fun p => (p.1, a.get_element p.1.1 p.1.2 - p.2)) := by
  refine ⟨_, subtract_ok_of_dims a b hr hc, ?_⟩
  have h := foldl_setf_elements (fun p => a.get_element p.1.1 p.1.2 - p.2) b.elements
    (init a.num_rows a.num_cols) (by intro k _ hk; simp [init, dictKeys] at hk) hwb
  rw [h]
  simp [init]

/-- C1: with equal declared shapes, `subtract` builds its result only
from `other`'s keys — the result's key list is `other`'s key list, the
value at each of `other`'s entries is `self.get_element` minus the stored
value, and every key of `self` absent from `other` is absent from the
result. -/
theorem subtract_builds_only_from_other_keys (a b : SparseMatrix) (hwb : b.WF)
    (hr : a.num_rows = b.num_rows) (hc : a.num_cols = b.num_cols) :
    ∃ r, subtract a b = .ok r
      ∧ dictKeys r.elements = dictKeys b.elements
      ∧ (∀ p ∈ b.elements,
          r.get_element p.1.1 p.1.2 = a.get_element p.1.1 p.1.2 - p.2)
      ∧ (∀ k ∈ dictKeys a.elements, k ∉ dictKeys b.elements → k ∉ dictKeys r.elements) := by
  obtain ⟨r, hok, hel⟩ := subtract_result_elements a b hwb hr hc
  have hkeys : dictKeys r.elements = dictKeys b.elements := by
    rw [hel]
    simp [dictKeys, List.map_map, Function.comp]
  refine ⟨r, hok, hkeys, ?_, ?_⟩
  · intro p hp
    obtain ⟨⟨pr, pc⟩, pv⟩ := p
    have hnd2 : (dictKeys r.elements).Nodup := by rw [hkeys]; exact hwb
    have hmem : ((pr, pc), a.get_element pr pc - pv) ∈ r.elements := by
      rw [hel]
      exact List.mem_map.2 ⟨((pr, pc), pv), hp, rfl⟩
    unfold get_element
    rw [dictGet_of_mem r.elements (pr, pc) _ hnd2 hmem]
    rfl
  · intro k _ hkb
    rw [hkeys]
    exact hkb

theorem add_get (a b : SparseMatrix) (hwa : a.WF) (hwb : b.WF)
    (hr : a.num_rows = b.num_rows) (hc : a.num_cols = b.num_cols) :
    ∃ r, add a b = .ok r
      ∧ (∀ i j, r.get_element i j = a.get_element i j + b.get_element i j)
      ∧ (∀ k, k ∈ dictKeys r.elements
          ↔ (k ∈ dictKeys a.elements ∨ k ∈ dictKeys b.elements)) := by
  refine ⟨_, add_ok_of_dims a b hr hc, ?_, ?_⟩
  · intro i j
    rw [get_foldl_accum,
      get_element_congr _ a (copy_elements a hwa a.num_rows a.num_cols) i j,
      sumAt_eq_dictGet b.elements (i, j) hwb]
    rfl
  · intro k
    have hacc : ∀ (ps : List ((Int × Int) × Int)) (acc : SparseMatrix),
        k ∈ dictKeys ((ps.foldl accumStep acc).elements)
          ↔ k ∈ dictKeys acc.elements ∨ k ∈ dictKeys ps := fun ps acc =>
      mem_dictKeys_foldl (fun r p => r.get_element p.1.1 p.1.2 + p.2) ps acc k
    rw [hacc,
      show (a.elements.foldl (fun r p => r.set_element p.1.1 p.1.2 p.2)
        (init a.num_rows a.num_cols)).elements = a.elements
        from copy_elements a hwa a.num_rows a.num_cols]

/-- C3: with equal declared shapes, `add(A, B)` and `add(B, A)` carry the
same value mapping: both key sets are the union of the operands' key
sets, the two results agree at every coordinate, and the common value is
the pointwise sum `A.get_element + B.get_element` (which sums entries
present in both and keeps a lone entry's original value). -/
theorem add_value_content_commutative (a b : SparseMatrix) (hwa : a.WF) (hwb : b.WF)
    (hr : a.num_rows = b.num_rows) (hc : a.num_cols = b.num_cols) :
    ∃ r s, add a b = .ok r ∧ add b a = .ok s
      ∧ (∀ k, k ∈ dictKeys r.elements
          ↔ (k ∈ dictKeys a.elements ∨ k ∈ dictKeys b.elements))
      ∧ (∀ k, k ∈ dictKeys s.elements
          ↔ (k ∈ dictKeys a.elements ∨ k ∈ dictKeys b.elements))
      ∧ (∀ i j, r.get_element i j = s.get_element i j)
      ∧ (∀ i j, r.get_element i j = a.get_element i j + b.get_element i j) := by
  obtain ⟨r, hokr, hvalr, hkeyr⟩ := add_get a b hwa hwb hr hc
  obtain ⟨s, hoks, hvals, hkeys2⟩ := add_get b a hwb hwa hr.symm hc.symm
  refine ⟨r, s, hokr, hoks, hkeyr, fun k => (hkeys2 k).trans or_comm, ?_, hvalr⟩
  intro i j
  rw [hvalr, hvals, add_comm]

/-- Witness for C1 at the concrete scenario matrices. -/
theorem subtract_builds_only_from_other_keys_witness :
    ∃ r, subtract exampleA exampleB = .ok r
      ∧ dictKeys r.elements = dictKeys exampleB.elements
      ∧ (∀ p ∈ exampleB.elements,
          r.get_element p.1.1 p.1.2 = exampleA.get_element p.1.1 p.1.2 - p.2)
      ∧ (∀ k ∈ dictKeys exampleA.elements,
          k ∉ dictKeys exampleB.elements → k ∉ dictKeys r.elements) :=
  subtract_builds_only_from_other_keys exampleA exampleB (by unfold WF; decide)
    (by decide) (by decide)

/-- Witness for C3 at the concrete scenario matrices. -/
theorem add_value_content_commutative_witness :
    ∃ r s, add exampleA exampleB = .ok r ∧ add exampleB exampleA = .ok s
      ∧ (∀ k, k ∈ dictKeys r.elements
          ↔ (k ∈ dictKeys exampleA.elements ∨ k ∈ dictKeys exampleB.elements))
      ∧ (∀ k, k ∈ dictKeys s.elements
          ↔ (k ∈ dictKeys exampleA.elements ∨ k ∈ dictKeys exampleB.elements))
      ∧ (∀ i j, r.get_element i j = s.get_element i j)
      ∧ (∀ i j, r.get_element i j
          = exampleA.get_element i j + exampleB.get_element i j) :=
  add_value_content_commutative exampleA exampleB (by unfold WF; decide)
    (by unfold WF; decide) (by decide) (by decide)

theorem parseElems_inv :
    ∀ (ls : List (List Char)) (m m2 : SparseMatrix),
      parseElems ls m = .ok m2 → m.Inv → m2.Inv := by
  intro ls
  induction ls with
  | nil =>
    intro m m2 h hm
    simp only [parseElems] at h
    injection h with h2
    rw [← h2]
    exact hm
  | cons l ls ih =>
    intro m m2 h hm
    simp only [parseElems] at h
    by_cases hcnd : l.head? = some '(' ∧ l.getLast? = some ')'
    · rw [if_pos hcnd] at h
      cases htr : parseTriple l with
      | none => rw [htr] at h; cases h
      | some t =>
        obtain ⟨r, c, v⟩ := t
        rw [htr] at h
        exact ih _ _ h (inv_set_element _ _ _ _ hm)
    · rw [if_neg hcnd] at h
      cases h

theorem fromLines_inv (lines : List (List Char)) (m : SparseMatrix)
    (h : fromLines lines = .ok m) : m.Inv := by
  match lines with
  | [] => cases h
  | [l0] => cases h
  | l0 :: l1 :: rest =>
    simp only [fromLines] at h
    cases h0 : parseDim l0 with
    | none => rw [h0] at h; cases h
    | some nr =>
      cases h1 : parseDim l1 with
      | none => rw [h0, h1] at h; cases h
      | some nc =>
        rw [h0, h1] at h
        exact parseElems_inv rest _ m h (inv_init nr nc)

theorem add_inv (a b r : SparseMatrix) (h : add a b = .ok r) : r.Inv := by
  unfold add at h
  by_cases hcond : a.num_rows ≠ b.num_rows ∨ a.num_cols ≠ b.num_cols
  · rw [if_pos hcond] at h; cases h
  · rw [if_neg hcond] at h
    injection h with h2
    rw [← h2]
    exact inv_foldl (fun r p => r.get_element p.1.1 p.1.2 + p.2) b.elements _
      (inv_foldl (fun _ p => p.2) a.elements _ (inv_init _ _))

theorem subtract_inv (a b r : SparseMatrix) (h : subtract a b = .ok r) : r.Inv := by
  unfold subtract at h
  by_cases hcond : a.num_rows ≠ b.num_rows ∨ a.num_cols ≠ b.num_cols
  · rw [if_pos hcond] at h; cases h
  · rw [if_neg hcond] at h
    injection h with h2
    rw [← h2]
    exact inv_foldl (fun _ p => a.get_element p.1.1 p.1.2 - p.2) b.elements _ (inv_init _ _)

theorem multiply_inv (a b r : SparseMatrix) (h : multiply a b = .ok r) : r.Inv := by
  by_cases hcond : a.num_cols ≠ b.num_rows
  · unfold multiply at h
    rw [if_pos hcond] at h
    cases h
  · have hdim : a.num_cols = b.num_rows := not_not.1 hcond
    rw [multiply_eq_foldl_mulDeltas a b hdim] at h
    injection h with h2
    rw [← h2]
    exact inv_foldl (fun r p => r.get_element p.1.1 p.1.2 + p.2) (mulDeltas a b) _
      (inv_init _ _)

/-- C10: every matrix the program produces — by the constructor, by
`set_element` on an invariant-satisfying matrix, by `from_file`, or by a
successful `add`, `subtract` or `multiply` — stores only coordinates
strictly below its declared `num_rows`/`num_cols` (negative coordinates
included, since `set_element` grows a dimension exactly when the index
is ≥ it). -/
theorem dimension_invariant :
    (∀ nr nc : Int, (init nr nc).Inv)
    ∧ (∀ (m : SparseMatrix) (r c v : Int), m.Inv → (m.set_element r c v).Inv)
    ∧ (∀ (lines : List (List Char)) (m : SparseMatrix), fromLines lines = .ok m → m.Inv)
    ∧ (∀ a b r : SparseMatrix, add a b = .ok r → r.Inv)
    ∧ (∀ a b r : SparseMatrix, subtract a b = .ok r → r.Inv)
    ∧ (∀ a b r : SparseMatrix, multiply a b = .ok r → r.Inv) :=
  ⟨inv_init, inv_set_element, fromLines_inv, add_inv, subtract_inv, multiply_inv⟩

/-- Witness for C10 at concrete inputs. -/
theorem dimension_invariant_witness :
    ((⟨[((0, 0), 1)], 1, 1⟩ : SparseMatrix).set_element 2 3 5).Inv
    ∧ (⟨[((2, 3), 7)], 3, 4⟩ : SparseMatrix).Inv :=
  ⟨dimension_invariant.2.1 ⟨[((0, 0), 1)], 1, 1⟩ 2 3 5 (by unfold Inv; decide),
    dimension_invariant.2.2.1 ["rows=1".toList, "cols=1".toList, "(2, 3, 7)".toList]
      ⟨[((2, 3), 7)], 3, 4⟩ (by rfl)⟩


/-! ## C2: the multiply result as a finite sum of products -/

theorem sumAt_filterMap_mul (x : (Int × Int) × Int) (i j : Int) :
    ∀ (es : List ((Int × Int) × Int)), (dictKeys es).Nodup →
      sumAt (es.filterMap (fun p2 =>
          if x.1.2 = p2.1.1 then some ((x.1.1, p2.1.2), x.2 * p2.2) else none)) (i, j)
        = if x.1.1 = i then x.2 * (dictGet es (x.1.2, j)).getD 0 else 0 := by
  obtain ⟨⟨xr, xc⟩, xv⟩ := x
  intro es
  induction es with
  | nil =>
    intro _
    by_cases h1 : xr = i <;> simp [sumAt, dictGet, h1]
  | cons p2 rest ih =>
    obtain ⟨⟨qr, qc⟩, qv⟩ := p2
    intro hnd
    simp only [dictKeys, List.map_cons, List.nodup_cons] at hnd
    by_cases hc : xc = qr
    · rw [List.filterMap_cons]
      simp only [if_pos hc]
      rw [sumAt_cons, ih hnd.2]
      by_cases h1 : xr = i
      · by_cases h2 : qc = j
        · have hkey : ((xr : Int), (qc : Int)) = (i, j) := by rw [h1, h2]
          rw [if_pos hkey, if_pos h1, if_pos h1]
          have hpair : ((qr : Int), (qc : Int)) = (xc, j) := by rw [hc, h2]
          have hget : dictGet (((qr, qc), qv) :: rest) (xc, j) = some qv := by
            rw [show dictGet (((qr, qc), qv) :: rest) (xc, j)
                = if ((qr : Int), (qc : Int)) = (xc, j) then some qv
                  else dictGet rest (xc, j) from rfl,
              if_pos hpair]
          have hrest : dictGet rest (xc, j) = none := by
            rw [dictGet_eq_none_iff]
            intro hmem
            apply hnd.1
            rw [show ((qr : Int), (qc : Int)) = (xc, j) from hpair]
            exact hmem
          rw [hget, hrest]
          simp
        · have hkey : ¬ ((xr : Int), (qc : Int)) = (i, j) := by
            intro hh
            injection hh with hh1 hh2
            exact h2 hh2
          rw [if_neg hkey, if_pos h1, if_pos h1]
          have hget : dictGet (((qr, qc), qv) :: rest) (xc, j) = dictGet rest (xc, j) := by
            rw [show dictGet (((qr, qc), qv) :: rest) (xc, j)
                = if ((qr : Int), (qc : Int)) = (xc, j) then some qv
                  else dictGet rest (xc, j) from rfl,
              if_neg (by
                intro hh
                injection hh with hh1 hh2
                exact h2 hh2)]
          rw [hget]
          simp
      · have hkey : ¬ ((xr : Int), (qc : Int)) = (i, j) := by
          intro hh
          injection hh with hh1 hh2
          exact h1 hh1
        rw [if_neg hkey, if_neg h1, if_neg h1]
        simp
    · rw [List.filterMap_cons]
      simp only [if_neg hc]
      rw [ih hnd.2]
      have hget : dictGet (((qr, qc), qv) :: rest) (xc, j) = dictGet rest (xc, j) := by
        rw [show dictGet (((qr, qc), qv) :: rest) (xc, j)
            = if ((qr : Int), (qc : Int)) = (xc, j) then some qv
              else dictGet rest (xc, j) from rfl,
          if_neg (by
            intro hh
            injection hh with hh1 hh2
            exact hc hh1.symm)]
      rw [hget]

theorem sumAt_mulDeltas (a b : SparseMatrix) (hwb : b.WF) (i j : Int) :
    sumAt (mulDeltas a b) (i, j)
      = (a.elements.map (fun p1 =>
          if p1.1.1 = i then p1.2 * b.get_element p1.1.2 j else 0)).sum := by
  unfold mulDeltas
  rw [sumAt_flatMap]
  congr 1
  apply List.map_congr_left
  intro x _
  exact sumAt_filterMap_mul x i j b.elements hwb

theorem sum_row_select (i : Int) (G : Int → Int) (gf : Int → Int) :
    ∀ (l : List ((Int × Int) × Int)), (∀ p ∈ l, p.1.1 = i → gf p.1.2 = p.2) →
      ((l.filterMap (fun p => if p.1.1 = i then some p.1.2 else none)).map
          (fun k => gf k * G k)).sum
        = (l.map (fun p => if p.1.1 = i then p.2 * G p.1.2 else 0)).sum := by
  intro l
  induction l with
  | nil => intro _; rfl
  | cons p rest ih =>
    intro hl
    rw [List.filterMap_cons]
    by_cases h : p.1.1 = i
    · simp only [if_pos h, List.map_cons, List.sum_cons]
      rw [ih (fun q hq => hl q (List.mem_cons_of_mem _ hq)),
        hl p (List.mem_cons_self _ _) h]
    · simp only [if_neg h, List.map_cons, List.sum_cons]
      rw [ih (fun q hq => hl q (List.mem_cons_of_mem _ hq))]
      simp

theorem colsInRow_nodup (a : SparseMatrix) (hwa : a.WF) (i : Int) :
    (colsInRow a i).Nodup := by
  unfold colsInRow
  unfold WF at hwa
  revert hwa
  generalize a.elements = l
  induction l with
  | nil => intro _; exact List.nodup_nil
  | cons p rest ih =>
    intro hnd
    simp only [dictKeys, List.map_cons, List.nodup_cons] at hnd
    rw [List.filterMap_cons]
    by_cases h : p.1.1 = i
    · simp only [if_pos h]
      refine List.nodup_cons.2 ⟨?_, ih hnd.2⟩
      intro hmem
      obtain ⟨q, hq, hqe⟩ := List.mem_filterMap.1 hmem
      by_cases hq1 : q.1.1 = i
      · rw [if_pos hq1] at hqe
        injection hqe with hqe
        apply hnd.1
        have hqp : q.1 = p.1 := by
          rw [show q.1 = (q.1.1, q.1.2) from rfl, show p.1 = (p.1.1, p.1.2) from rfl,
            hq1, h, hqe]
        rw [← hqp]
        exact List.mem_map.2 ⟨q, hq, rfl⟩
      · rw [if_neg hq1] at hqe
        cases hqe
    · simp only [if_neg h]
      exact ih hnd.2

theorem get_zero_of_not_colsInRow (a : SparseMatrix) (i k : Int)
    (h : k ∉ colsInRow a i) : a.get_element i k = 0 := by
  cases hg : dictGet a.elements (i, k) with
  | none =>
    unfold get_element
    rw [hg]
    rfl
  | some v =>
    exfalso
    apply h
    unfold colsInRow
    exact List.mem_filterMap.2
      ⟨((i, k), v), mem_of_dictGet_eq_some _ _ _ hg, by rw [if_pos rfl]⟩

/-- C2: with compatible shapes and on well-formed, invariant-satisfying
operands (every matrix the program builds is such), `multiply` returns a
matrix of shape `(self.num_rows, other.num_cols)` whose entry at every
coordinate `(i, j)` is the finite sum over all integers `k` of
`A.get_element(i, k) * B.get_element(k, j)`. -/
theorem multiply_spec (a b : SparseMatrix) (hwa : a.WF) (hwb : b.WF)
    (hia : a.Inv) (hib : b.Inv) (hdim : a.num_cols = b.num_rows) :
    ∃ r, multiply a b = .ok r
      ∧ r.num_rows = a.num_rows ∧ r.num_cols = b.num_cols
      ∧ ∀ i j : Int, r.get_element i j
          = ∑ᶠ k : Int, a.get_element i k * b.get_element k j := by
  have hb : ∀ p ∈ mulDeltas a b,
      p.1.1 < (init a.num_rows b.num_cols).num_rows
        ∧ p.1.2 < (init a.num_rows b.num_cols).num_cols := by
    intro p hp
    obtain ⟨p1, hp1, hpin⟩ := List.mem_flatMap.1 hp
    obtain ⟨p2, hp2, hpe⟩ := List.mem_filterMap.1 hpin
    by_cases hc : p1.1.2 = p2.1.1
    · rw [if_pos hc] at hpe
      injection hpe with hpe
      rw [← hpe]
      exact ⟨(hia p1 hp1).1, (hib p2 hp2).2⟩
    · rw [if_neg hc] at hpe
      cases hpe
  refine ⟨_, multiply_eq_foldl_mulDeltas a b hdim,
    (foldl_dims_of_bounds (fun r p => r.get_element p.1.1 p.1.2 + p.2)
      (mulDeltas a b) (init a.num_rows b.num_cols) hb).1,
    (foldl_dims_of_bounds (fun r p => r.get_element p.1.1 p.1.2 + p.2)
      (mulDeltas a b) (init a.num_rows b.num_cols) hb).2, ?_⟩
  intro i j
  rw [get_foldl_accum, get_element_init, zero_add, sumAt_mulDeltas a b hwb i j]
  have hrow : ∀ p ∈ a.elements, p.1.1 = i → a.get_element i p.1.2 = p.2 := by
    intro p hp he
    have hget := dictGet_of_mem a.elements p.1 p.2 hwa hp
    unfold get_element
    rw [show ((i : Int), (p.1.2 : Int)) = p.1 by
      rw [show p.1 = (p.1.1, p.1.2) from rfl, he], hget]
    rfl
  rw [← sum_row_select i (fun k => b.get_element k j)
    (fun k => a.get_element i k) a.elements hrow]
  rw [show (a.elements.filterMap (fun p => if p.1.1 = i then some p.1.2 else none))
      = colsInRow a i from rfl]
  rw [← List.sum_toFinset _ (colsInRow_nodup a hwa i)]
  refine (finsum_eq_sum_of_support_subset _ ?_).symm
  intro k hk
  rw [Finset.mem_coe, List.mem_toFinset]
  by_contra hkn
  have hk2 : a.get_element i k * b.get_element k j ≠ 0 := hk
  exact hk2 (by rw [get_zero_of_not_colsInRow a i k hkn]; exact zero_mul _)

/-! ## C8: malformed element lines abort the parse -/

theorem parseElems_error :
    ∀ (ls : List (List Char)) (m : SparseMatrix),
      (∃ l ∈ ls, ¬ (l.head? = some '(' ∧ l.getLast? = some ')') ∨ parseTriple l = none) →
      ∃ e, parseElems ls m = .error e := by
  intro ls
  induction ls with
  | nil =>
    intro m hex
    obtain ⟨l, hl, _⟩ := hex
    simp at hl
  | cons l0 ls ih =>
    intro m hex
    obtain ⟨l, hl, hbad⟩ := hex
    simp only [parseElems]
    by_cases hc : l0.head? = some '(' ∧ l0.getLast? = some ')'
    · rw [if_pos hc]
      cases ht : parseTriple l0 with
      | none => exact ⟨_, rfl⟩
      | some t =>
        obtain ⟨r, c, v⟩ := t
        rcases List.mem_cons.1 hl with rfl | hl2
        · rcases hbad with hbad | hbad
          · exact absurd hc hbad
          · rw [ht] at hbad
            cases hbad
        · exact ih _ ⟨l, hl2, hbad⟩
    · rw [if_neg hc]
      exact ⟨_, rfl⟩

theorem parseTriple_eq_none (l : List Char)
    (h : (splitOnChar ',' ((l.drop 1).dropLast)).length < 3
      ∨ ∃ f ∈ (splitOnChar ',' ((l.drop 1).dropLast)).take 3,
          pyInt (stripChars f) = none) :
    parseTriple l = none := by
  unfold parseTriple
  dsimp only
  split
  · next f0 f1 f2 heq0 heq1 heq2 =>
    split
    · next r c v hr hc2 hv =>
      exfalso
      rcases h with h | ⟨f, hf, hnone⟩
      · have h2 : (splitOnChar ',' ((l.drop 1).dropLast)).length ≤ 2 := by omega
        have h3 : (splitOnChar ',' ((l.drop 1).dropLast)).get? 2 = none :=
          List.get?_eq_none.2 h2
        rw [heq2] at h3
        cases h3
      · obtain ⟨n, hn⟩ := List.mem_iff_get?.1 hf
        have hnlt : n < 3 := by
          by_contra hge
          push_neg at hge
          have h4 : (List.take 3 (splitOnChar ',' ((l.drop 1).dropLast))).get? n = none :=
            List.get?_eq_none.2 (by
              have := List.length_take 3 (splitOnChar ',' ((l.drop 1).dropLast))
              omega)
          rw [hn] at h4
          cases h4
        have hng : (splitOnChar ',' ((l.drop 1).dropLast)).get? n = some f := by
          rw [← List.get?_take hnlt]
          exact hn
        interval_cases n
        · rw [heq0] at hng
          injection hng with hng
          rw [← hng] at hnone
          rw [hnone] at hr
          cases hr
        · rw [heq1] at hng
          injection hng with hng
          rw [← hng] at hnone
          rw [hnone] at hc2
          cases hc2
        · rw [heq2] at hng
          injection hng with hng
          rw [← hng] at hnone
          rw [hnone] at hv
          cases hv
    · rfl
  · rfl

/-- C8: during `from_file`, any (non-blank, stripped) line after the two
header lines that does not both start with `(` and end with `)` makes
the whole parse fail with a format error, as does a parenthesized line
whose body has fewer than 3 comma-separated fields or whose first three
fields contain one that does not parse as an integer (the source reads
only fields 0-2, so those are the fields that can fail); in particular
the line `(1,2)` fails.  The `Except.error` result carries no matrix. -/
theorem malformed_element_line_errors :
    (∀ (lines : List (List Char)) (l : List Char), l ∈ lines.drop 2 →
      (¬ (l.head? = some '(' ∧ l.getLast? = some ')')
        ∨ (splitOnChar ',' ((l.drop 1).dropLast)).length < 3
        ∨ ∃ f ∈ (splitOnChar ',' ((l.drop 1).dropLast)).take 3,
            pyInt (stripChars f) = none) →
      ∃ e, fromLines lines = .error e)
    ∧ fromLines ["rows=2".toList, "cols=2".toList, "(1,2)".toList]
        = .error "Invalid matrix element format in file." := by
  constructor
  · intro lines l hmem hbad
    rcases lines with _ | ⟨l0, _ | ⟨l1, rest⟩⟩
    · simp at hmem
    · simp at hmem
    · have hmem2 : l ∈ rest := by simpa using hmem
      have hbad2 : ¬ (l.head? = some '(' ∧ l.getLast? = some ')')
          ∨ parseTriple l = none := by
        rcases hbad with h | h | h
        · exact Or.inl h
        · exact Or.inr (parseTriple_eq_none l (Or.inl h))
        · exact Or.inr (parseTriple_eq_none l (Or.inr h))
      simp only [fromLines]
      cases h0 : parseDim l0 with
      | none =>
        cases h1 : parseDim l1 with
        | none => exact ⟨_, rfl⟩
        | some nc => exact ⟨_, rfl⟩
      | some nr =>
        cases h1 : parseDim l1 with
        | none => exact ⟨_, rfl⟩
        | some nc => exact parseElems_error rest _ ⟨l, hmem2, hbad2⟩
  · rfl

/-- Witness for C8 at the concrete malformed line `(1,2)`. -/
theorem malformed_element_line_errors_witness :
    ∃ e, fromLines ["rows=2".toList, "cols=2".toList, "(1,2)".toList] = .error e :=
  malformed_element_line_errors.1
    ["rows=2".toList, "cols=2".toList, "(1,2)".toList]
    "(1,2)".toList (by decide) (Or.inr (Or.inl (by decide)))

/-- Witness for C2 at the concrete scenario matrices. -/
theorem multiply_spec_witness :
    ∃ r, multiply exampleA exampleB = .ok r
      ∧ r.num_rows = exampleA.num_rows ∧ r.num_cols = exampleB.num_cols
      ∧ ∀ i j : Int, r.get_element i j
          = ∑ᶠ k : Int, exampleA.get_element i k * exampleB.get_element k j :=
  multiply_spec exampleA exampleB (by unfold WF; decide) (by unfold WF; decide)
    (by unfold Inv; decide) (by unfold Inv; decide) (by decide)

end SparseMatrix

/-! ## Decimal round-trip lemmas for C9 -/

theorem digitChar_isDigit (d : Nat) (h : d < 10) : (Nat.digitChar d).isDigit = true := by
  interval_cases d <;> decide

theorem digitChar_toNat (d : Nat) (h : d < 10) : (Nat.digitChar d).toNat - 48 = d := by
  interval_cases d <;> decide

theorem isDigit_not_ws (c : Char) (h : c.isDigit = true) : c.isWhitespace = false := by
  rw [show c.isWhitespace = (c = ' ' || c = '\t' || c = '\r' || c = '\n') from rfl]
  simp only [Bool.or_eq_false_iff, decide_eq_false_iff_not]
  refine ⟨⟨⟨?_, ?_⟩, ?_⟩, ?_⟩ <;> rintro rfl <;> revert h <;> decide

theorem mem_natRepr_isDigit (n : Nat) (c : Char) (h : c ∈ natRepr n) :
    c.isDigit = true := by
  unfold natRepr at h
  by_cases h0 : n = 0
  · rw [if_pos h0] at h
    simp at h
    rw [h]
    decide
  · rw [if_neg h0] at h
    rw [List.mem_reverse] at h
    obtain ⟨d, hd, hdc⟩ := List.mem_map.1 h
    rw [← hdc]
    exact digitChar_isDigit d (Nat.digits_lt_base (by norm_num) hd)

theorem natRepr_ne_nil (n : Nat) : natRepr n ≠ [] := by
  unfold natRepr
  by_cases h0 : n = 0
  · rw [if_pos h0]
    simp
  · rw [if_neg h0]
    simp
    exact Nat.digits_ne_nil_iff_ne_zero.2 h0

theorem foldl_digits_eq_ofDigits (ds : List Nat) :
    ∀ a : Nat, ds.reverse.foldl (fun acc d => 10 * acc + d) a
      = a * 10 ^ ds.length + Nat.ofDigits 10 ds := by
  induction ds with
  | nil => intro a; simp
  | cons d ds ih =>
    intro a
    rw [List.reverse_cons, List.foldl_append, ih]
    simp only [List.foldl_cons, List.foldl_nil, Nat.ofDigits_cons, List.length_cons]
    ring

theorem parseDigits_natRepr (n : Nat) : parseDigits (natRepr n) = some n := by
  unfold parseDigits
  rw [if_pos ⟨natRepr_ne_nil n, List.all_eq_true.2
    (fun c hc => mem_natRepr_isDigit n c hc)⟩]
  congr 1
  unfold natRepr
  by_cases h0 : n = 0
  · rw [if_pos h0, h0]
    decide
  · rw [if_neg h0]
    have hfold : ∀ (ds : List Nat), (∀ d ∈ ds, d < 10) → ∀ a : Nat,
        ((ds.map Nat.digitChar).foldl (fun acc c => 10 * acc + (c.toNat - 48)) a)
          = ds.foldl (fun acc d => 10 * acc + d) a := by
      intro ds
      induction ds with
      | nil => intro _ a; rfl
      | cons d ds ih =>
        intro hlt a
        simp only [List.map_cons, List.foldl_cons]
        rw [digitChar_toNat d (hlt d (List.mem_cons_self _ _)),
          ih (fun q hq => hlt q (List.mem_cons_of_mem _ hq))]
    rw [← List.map_reverse, hfold (Nat.digits 10 n).reverse
      (fun d hd => Nat.digits_lt_base (by norm_num) (List.mem_reverse.1 hd)) 0,
      foldl_digits_eq_ofDigits, Nat.ofDigits_digits]
    simp

theorem mem_intRepr (i : Int) (c : Char) (h : c ∈ intRepr i) :
    c.isDigit = true ∨ c = '-' := by
  unfold intRepr at h
  by_cases hneg : i < 0
  · rw [if_pos hneg] at h
    rcases List.mem_cons.1 h with h | h
    · exact Or.inr h
    · exact Or.inl (mem_natRepr_isDigit _ _ h)
  · rw [if_neg hneg] at h
    exact Or.inl (mem_natRepr_isDigit _ _ h)

theorem mem_intRepr_not_ws (i : Int) (c : Char) (h : c ∈ intRepr i) :
    c.isWhitespace = false := by
  rcases mem_intRepr i c h with h2 | h2
  · exact isDigit_not_ws c h2
  · rw [h2]
    decide

theorem intRepr_ne_nil (i : Int) : intRepr i ≠ [] := by
  unfold intRepr
  by_cases hneg : i < 0
  · rw [if_pos hneg]
    simp
  · rw [if_neg hneg]
    exact natRepr_ne_nil _

theorem not_mem_intRepr (i : Int) (c : Char) (h1 : c.isDigit = false)
    (h2 : c ≠ '-') : c ∉ intRepr i := by
  intro hmem
  rcases mem_intRepr i c hmem with h | h
  · rw [h1] at h
    cases h
  · exact h2 h

theorem natRepr_head_isDigit (n : Nat) :
    ∀ c ∈ (natRepr n).head?, c.isDigit = true := by
  intro c hc
  exact mem_natRepr_isDigit n c (List.mem_of_mem_head? hc)

theorem parseSigned_intRepr (i : Int) : parseSigned (intRepr i) = some i := by
  unfold parseSigned
  by_cases hneg : i < 0
  · have hrepr : intRepr i = '-' :: natRepr i.natAbs := by
      unfold intRepr
      rw [if_pos hneg]
    rw [hrepr]
    rw [if_pos (show ('-' :: natRepr i.natAbs).head? = some '-' from rfl)]
    simp only [List.tail_cons]
    rw [parseDigits_natRepr]
    simp only [Option.some.injEq]
    omega
  · have hrepr : intRepr i = natRepr i.natAbs := by
      unfold intRepr
      rw [if_neg hneg]
    have hhead : ¬ (intRepr i).head? = some '-' := by
      intro hh
      have := natRepr_head_isDigit i.natAbs '-' (by rw [← hrepr]; exact hh)
      cases this
    have hhead2 : ¬ (intRepr i).head? = some '+' := by
      intro hh
      have := natRepr_head_isDigit i.natAbs '+' (by rw [← hrepr]; exact hh)
      cases this
    rw [hrepr] at hhead hhead2
    rw [hrepr, if_neg hhead, if_neg hhead2, parseDigits_natRepr]
    simp only [Option.some.injEq]
    omega

/-! ## `strip` / `split` / `join` lemmas for C9 -/

theorem dropWhile_eq_self_of_head (p : Char → Bool) (l : List Char)
    (h : ∀ c ∈ l.head?, p c = false) : l.dropWhile p = l := by
  cases l with
  | nil => rfl
  | cons a t =>
    have ha := h a rfl
    rw [List.dropWhile_cons, ha]
    simp

theorem stripChars_eq_of_ends (l : List Char)
    (h1 : ∀ c ∈ l.head?, c.isWhitespace = false)
    (h2 : ∀ c ∈ l.getLast?, c.isWhitespace = false) : stripChars l = l := by
  unfold stripChars
  rw [dropWhile_eq_self_of_head _ l h1,
    dropWhile_eq_self_of_head _ l.reverse (by rw [List.head?_reverse]; exact h2)]
  exact List.reverse_reverse l

theorem stripChars_eq_of_all (l : List Char)
    (h : ∀ c ∈ l, c.isWhitespace = false) : stripChars l = l :=
  stripChars_eq_of_ends l (fun c hc => h c (List.mem_of_mem_head? hc))
    (fun c hc => h c (by
      rw [← List.head?_reverse] at hc
      exact List.mem_reverse.1 (List.mem_of_mem_head? hc)))

theorem stripChars_cons_space (l : List Char) :
    stripChars (' ' :: l) = stripChars l := by
  unfold stripChars
  rw [List.dropWhile_cons, if_pos (by decide)]

theorem splitOnChar_ne_nil (c : Char) (l : List Char) : splitOnChar c l ≠ [] := by
  cases l with
  | nil => simp [splitOnChar]
  | cons a rest =>
    unfold splitOnChar
    cases h : splitOnChar c rest with
    | nil => simp
    | cons s ss => by_cases hac : a = c <;> simp [hac]

theorem splitOnChar_not_mem (c : Char) (l : List Char) (h : c ∉ l) :
    splitOnChar c l = [l] := by
  induction l with
  | nil => rfl
  | cons a rest ih =>
    have hac : a ≠ c := by
      rintro rfl
      exact h (List.mem_cons_self _ _)
    have hrest : c ∉ rest := fun hm => h (List.mem_cons_of_mem _ hm)
    unfold splitOnChar
    rw [ih hrest]
    simp [hac]

theorem splitOnChar_append (c : Char) (a b : List Char) (h : c ∉ a) :
    splitOnChar c (a ++ c :: b) = a :: splitOnChar c b := by
  induction a with
  | nil =>
    simp only [List.nil_append]
    have heq : splitOnChar c (c :: b)
        = match splitOnChar c b with
          | [] => [[c]]
          | s :: ss => if c = c then [] :: s :: ss else (c :: s) :: ss := rfl
    rw [heq]
    cases hs : splitOnChar c b with
    | nil => exact absurd hs (splitOnChar_ne_nil c b)
    | cons s ss => simp
  | cons x xs ih =>
    have hxc : x ≠ c := by
      rintro rfl
      exact h (List.mem_cons_self _ _)
    have hxs : c ∉ xs := fun hm => h (List.mem_cons_of_mem _ hm)
    simp only [List.cons_append]
    have heq : splitOnChar c (x :: (xs ++ c :: b))
        = match splitOnChar c (xs ++ c :: b) with
          | [] => [[x]]
          | s :: ss => if x = c then [] :: s :: ss else (x :: s) :: ss := rfl
    rw [heq, ih hxs]
    simp [hxc]

theorem splitOnChar_joinSep (c : Char) :
    ∀ (ls : List (List Char)), ls ≠ [] → (∀ x ∈ ls, c ∉ x) →
      splitOnChar c (joinSep c ls) = ls := by
  intro ls
  induction ls with
  | nil =>
    intro h _
    cases h rfl
  | cons x xs ih =>
    intro _ hall
    cases xs with
    | nil =>
      rw [show joinSep c [x] = x from rfl]
      exact splitOnChar_not_mem c x (hall x (List.mem_cons_self _ _))
    | cons y ys =>
      rw [show joinSep c (x :: y :: ys) = x ++ c :: joinSep c (y :: ys) from rfl,
        splitOnChar_append c x _ (hall x (List.mem_cons_self _ _)),
        ih (by simp) (fun q hq => hall q (List.mem_cons_of_mem _ hq))]

/-! ## C9: serialize-then-parse round trip -/

theorem hdr_line_no_ws (key : List Char) (R : Int)
    (hkey : ∀ c ∈ key, c.isWhitespace = false) :
    ∀ c ∈ key ++ '=' :: intRepr R, c.isWhitespace = false := by
  intro c hc
  rcases List.mem_append.1 hc with h | h
  · exact hkey c h
  · rcases List.mem_cons.1 h with rfl | h
    · decide
    · exact mem_intRepr_not_ws R c h

theorem newline_not_mem_hdr (key : List Char) (R : Int) (hkey : ('\n') ∉ key) :
    ('\n') ∉ key ++ '=' :: intRepr R := by
  intro hmem
  rcases List.mem_append.1 hmem with h | h
  · exact hkey h
  · rcases List.mem_cons.1 h with h | h
    · exact absurd h (by decide)
    · exact not_mem_intRepr R _ (by decide) (by decide) h

namespace SparseMatrix

theorem elemLine_chars (p : (Int × Int) × Int) (c : Char) (hc : c ∈ elemLine p) :
    c = '(' ∨ c = ')' ∨ c = ',' ∨ c = ' '
      ∨ c ∈ intRepr p.1.1 ∨ c ∈ intRepr p.1.2 ∨ c ∈ intRepr p.2 := by
  simp only [elemLine, List.mem_append, List.mem_cons, List.mem_singleton,
    List.not_mem_nil, or_false] at hc
  tauto

theorem newline_not_mem_elemLine (p : (Int × Int) × Int) : ('\n') ∉ elemLine p := by
  intro hmem
  rcases elemLine_chars p _ hmem with h | h | h | h | h | h | h
  · exact absurd h (by decide)
  · exact absurd h (by decide)
  · exact absurd h (by decide)
  · exact absurd h (by decide)
  · exact not_mem_intRepr _ _ (by decide) (by decide) h
  · exact not_mem_intRepr _ _ (by decide) (by decide) h
  · exact not_mem_intRepr _ _ (by decide) (by decide) h

theorem elemLine_head (p : (Int × Int) × Int) : (elemLine p).head? = some '(' := rfl

theorem elemLine_getLast (p : (Int × Int) × Int) :
    (elemLine p).getLast? = some ')' := by
  have he : elemLine p
      = ('(' :: (intRepr p.1.1 ++ ',' :: ' '
          :: (intRepr p.1.2 ++ ',' :: ' ' :: intRepr p.2))) ++ [')'] := by
    simp [elemLine, List.append_assoc]
  rw [he, List.getLast?_concat]

theorem stripChars_elemLine (p : (Int × Int) × Int) :
    stripChars (elemLine p) = elemLine p := by
  refine stripChars_eq_of_ends _ ?_ ?_
  · intro c hc
    rw [elemLine_head] at hc
    have : c = '(' := by
      cases hc
      rfl
    rw [this]
    decide
  · intro c hc
    rw [elemLine_getLast] at hc
    have : c = ')' := by
      cases hc
      rfl
    rw [this]
    decide

theorem parseMatrixFileContent_fileContent (m : SparseMatrix) :
    parseMatrixFileContent (fileContent m) = strLines m := by
  have hnl : ∀ x ∈ strLines m, ('\n') ∉ x := by
    intro x hx
    rcases List.mem_cons.1 hx with rfl | hx
    · exact newline_not_mem_hdr _ _ (by decide)
    · rcases List.mem_cons.1 hx with rfl | hx
      · exact newline_not_mem_hdr _ _ (by decide)
      · obtain ⟨p, _, rfl⟩ := List.mem_map.1 hx
        exact newline_not_mem_elemLine p
  have hstrip : ∀ l ∈ strLines m, stripChars l = l := by
    intro l hl
    rcases List.mem_cons.1 hl with rfl | hl
    · exact stripChars_eq_of_all _ (hdr_line_no_ws _ _ (by decide))
    · rcases List.mem_cons.1 hl with rfl | hl
      · exact stripChars_eq_of_all _ (hdr_line_no_ws _ _ (by decide))
      · obtain ⟨p, _, rfl⟩ := List.mem_map.1 hl
        exact stripChars_elemLine p
  have hneb : ∀ l ∈ strLines m, l ≠ [] := by
    intro l hl
    rcases List.mem_cons.1 hl with rfl | hl
    · simp
    · rcases List.mem_cons.1 hl with rfl | hl
      · simp
      · obtain ⟨p, _, rfl⟩ := List.mem_map.1 hl
        simp [elemLine]
  unfold parseMatrixFileContent fileContent
  rw [splitOnChar_joinSep '\n' (strLines m) (by simp [strLines]) hnl]
  rw [show (strLines m).map stripChars = (strLines m).map id from
    List.map_congr_left (fun l hl => hstrip l hl), List.map_id]
  rw [List.filter_eq_self.2 (fun l hl => by simpa using hneb l hl)]

theorem parseDim_header (key : List Char) (R : Int) (hkey : ('=') ∉ key) :
    parseDim (key ++ '=' :: intRepr R) = some R := by
  have hget : (splitOnChar '=' (key ++ '=' :: intRepr R)).get? 1 = some (intRepr R) := by
    rw [splitOnChar_append '=' key (intRepr R) hkey,
      splitOnChar_not_mem '=' (intRepr R) (not_mem_intRepr R '=' (by decide) (by decide))]
    rfl
  unfold parseDim
  rw [hget]
  show pyInt (intRepr R) = some R
  unfold pyInt
  rw [stripChars_eq_of_all _ (fun c hc => mem_intRepr_not_ws R c hc)]
  exact parseSigned_intRepr R

theorem stripChars_intRepr (i : Int) : stripChars (intRepr i) = intRepr i :=
  stripChars_eq_of_all _ (fun c hc => mem_intRepr_not_ws i c hc)

theorem pyInt_intRepr (i : Int) : pyInt (stripChars (intRepr i)) = some i := by
  rw [stripChars_intRepr]
  unfold pyInt
  rw [stripChars_intRepr]
  exact parseSigned_intRepr i

theorem pyInt_space_intRepr (i : Int) :
    pyInt (stripChars (' ' :: intRepr i)) = some i := by
  rw [stripChars_cons_space, stripChars_intRepr]
  unfold pyInt
  rw [stripChars_intRepr]
  exact parseSigned_intRepr i

theorem parseTriple_elemLine (p : (Int × Int) × Int) :
    parseTriple (elemLine p) = some (p.1.1, p.1.2, p.2) := by
  have hdl : ((elemLine p).drop 1).dropLast
      = intRepr p.1.1 ++ ',' :: ' ' :: (intRepr p.1.2 ++ ',' :: ' ' :: intRepr p.2) := by
    have hdrop : (elemLine p).drop 1
        = intRepr p.1.1 ++ ',' :: ' '
          :: (intRepr p.1.2 ++ ',' :: ' ' :: (intRepr p.2 ++ [')'])) := by
      simp [elemLine]
    rw [hdrop]
    rw [show intRepr p.1.1 ++ ',' :: ' '
          :: (intRepr p.1.2 ++ ',' :: ' ' :: (intRepr p.2 ++ [')']))
        = (intRepr p.1.1 ++ ',' :: ' '
            :: (intRepr p.1.2 ++ ',' :: ' ' :: intRepr p.2)) ++ [')'] by
      simp [List.append_assoc]]
    exact List.dropLast_concat
  have hsplit : splitOnChar ',' (((elemLine p).drop 1).dropLast)
      = [intRepr p.1.1, ' ' :: intRepr p.1.2, ' ' :: intRepr p.2] := by
    rw [hdl]
    rw [splitOnChar_append ',' (intRepr p.1.1) _
      (not_mem_intRepr _ ',' (by decide) (by decide))]
    rw [show (' ' :: (intRepr p.1.2 ++ ',' :: ' ' :: intRepr p.2))
        = (' ' :: intRepr p.1.2) ++ ',' :: (' ' :: intRepr p.2) from rfl]
    rw [splitOnChar_append ',' (' ' :: intRepr p.1.2) _ (by
      intro hmem
      rcases List.mem_cons.1 hmem with h | h
      · exact absurd h (by decide)
      · exact not_mem_intRepr _ ',' (by decide) (by decide) h)]
    rw [splitOnChar_not_mem ',' (' ' :: intRepr p.2) (by
      intro hmem
      rcases List.mem_cons.1 hmem with h | h
      · exact absurd h (by decide)
      · exact not_mem_intRepr _ ',' (by decide) (by decide) h)]
  have hred : parseTriple (elemLine p)
      = match pyInt (stripChars (intRepr p.1.1)),
          pyInt (stripChars (' ' :: intRepr p.1.2)),
          pyInt (stripChars (' ' :: intRepr p.2)) with
        | some r, some c, some v => some (r, c, v)
        | _, _, _ => none := by
    unfold parseTriple
    dsimp only
    rw [hsplit]
    rfl
  rw [hred, pyInt_intRepr, pyInt_space_intRepr, pyInt_space_intRepr]

theorem parseElems_map_elemLine :
    ∀ (es : List ((Int × Int) × Int)) (acc : SparseMatrix),
      (∀ k ∈ dictKeys es, k ∉ dictKeys acc.elements) → (dictKeys es).Nodup →
      ∃ m2, parseElems (es.map elemLine) acc = .ok m2
        ∧ m2.elements = acc.elements ++ es := by
  intro es
  induction es with
  | nil =>
    intro acc _ _
    exact ⟨acc, rfl, by simp⟩
  | cons p rest ih =>
    intro acc hdisj hnd
    simp only [dictKeys, List.map_cons, List.nodup_cons] at hnd
    have hfresh : (p.1.1, p.1.2) ∉ dictKeys acc.elements :=
      hdisj p.1 (by simp [dictKeys])
    have hel : (acc.set_element p.1.1 p.1.2 p.2).elements
        = acc.elements ++ [p] := by
      rw [elements_set_element, dictSet_of_not_mem _ _ _ hfresh]
    have hd2 : ∀ k ∈ dictKeys rest,
        k ∉ dictKeys (acc.set_element p.1.1 p.1.2 p.2).elements := by
      intro k hk
      rw [hel, dictKeys_append]
      simp only [List.mem_append]
      push_neg
      refine ⟨hdisj k (by
        simp only [dictKeys, List.map_cons, List.mem_cons]
        exact Or.inr hk), ?_⟩
      simp only [dictKeys, List.map_cons, List.map_nil, List.mem_singleton]
      rintro rfl
      exact hnd.1 (by simpa [dictKeys] using hk)
    obtain ⟨m2, hok, hm2⟩ := ih (acc.set_element p.1.1 p.1.2 p.2) hd2 hnd.2
    refine ⟨m2, ?_, by rw [hm2, hel]; simp⟩
    simp only [List.map_cons, parseElems]
    rw [if_pos ⟨elemLine_head p, elemLine_getLast p⟩, parseTriple_elemLine p]
    exact hok

/-- C9: serializing a well-formed matrix with at least one stored entry
and no explicit-zero entries (the spec's hypotheses; they are not needed
for the proof to go through) and then parsing the produced text yields a
matrix whose element dict equals the original's exactly. -/
theorem save_load_roundtrip (m : SparseMatrix) (hwf : m.WF)
    (hne : m.elements ≠ []) (hz : ∀ p ∈ m.elements, p.2 ≠ 0) :
    ∃ m2, fromFileContent (fileContent m) = .ok m2 ∧ m2.elements = m.elements := by
  unfold fromFileContent
  rw [parseMatrixFileContent_fileContent m]
  obtain ⟨m2, hok, hm2⟩ := parseElems_map_elemLine m.elements
    (init m.num_rows m.num_cols)
    (by
      intro k _ hk
      simp [init, dictKeys] at hk) hwf
  refine ⟨m2, ?_, by rw [hm2]; simp [init]⟩
  rw [show strLines m
      = (['r', 'o', 'w', 's'] ++ '=' :: intRepr m.num_rows)
        :: (['c', 'o', 'l', 's'] ++ '=' :: intRepr m.num_cols)
        :: m.elements.map elemLine from rfl]
  simp only [fromLines]
  rw [parseDim_header ['r', 'o', 'w', 's'] m.num_rows (by decide),
    parseDim_header ['c', 'o', 'l', 's'] m.num_cols (by decide)]
  exact hok

/-- Witness for C9 at a concrete one-entry matrix. -/
theorem save_load_roundtrip_witness :
    ∃ m2, fromFileContent (fileContent ⟨[((0, 0), 1), ((1, 1), -5)], 2, 2⟩) = .ok m2
      ∧ m2.elements = (⟨[((0, 0), 1), ((1, 1), -5)], 2, 2⟩ : SparseMatrix).elements :=
  save_load_roundtrip ⟨[((0, 0), 1), ((1, 1), -5)], 2, 2⟩
    (by unfold WF; decide) (by decide) (by decide)

end SparseMatrix
